import Mathlib

/-!
Shallow embedding of the changelog assembly engine of
`release-changelog-builder-action` (`src/transform.ts`): reference linking,
deduplication, category classification and the placeholder template engine,
together with theorems settling the frozen claims about them.

JavaScript `Map` objects (which iterate in key-insertion order and let a
later `set` overwrite the value kept for a key) are embedded as association
lists with an in-place `set`; regular-expression objects, whose semantics are
supplied at configuration-validation time, are embedded as abstract
match/replace functions.
-/

/-- Insertion-ordered association-list update, mirroring JavaScript
`Map.prototype.set`: an existing key keeps its position and gets the new
value, a fresh key is appended at the end. -/
def omapSet {α β : Type} [DecidableEq α] : List (α × β) → α → β → List (α × β)
  | [], k, v => [(k, v)]
  | (k', v') :: rest, k, v =>
    if k' = k then (k, v) :: rest else (k', v') :: omapSet rest k v

/-- Lookup in an insertion-ordered association list (`Map.prototype.get`). -/
def omapGet {α β : Type} [DecidableEq α] : List (α × β) → α → Option β
  | [], _ => none
  | (k', v) :: rest, k => if k' = k then some v else omapGet rest k

/-- Modelled from the spec: `createOrSet` of `src/utils.ts` (the file is not
part of the staged sources) appends a value to the list kept for a key of a
`Map<string, T[]>`, creating a singleton list for a fresh key. -/
def createOrSet {α : Type} (m : List (String × List α)) (key : String) (v : α) :
    List (String × List α) :=
  match omapGet m key with
  | some l => omapSet m key (l ++ [v])
  | none => m ++ [(key, [v])]

/-- Fuel-indexed scan behind `replaceAll`: at every position, if the pattern
is a prefix of the remaining text, emit the replacement and continue after
the matched pattern, otherwise keep one character and move on. The fuel is
instantiated with the text length, which suffices for a nonempty pattern. -/
def replaceAllAux (pat rep : List Char) : Nat → List Char → List Char
  | 0, s => s
  | fuel + 1, s =>
    match s with
    | [] => []
    | c :: cs =>
      if pat.isPrefixOf s then rep ++ replaceAllAux pat rep fuel (s.drop pat.length)
      else c :: replaceAllAux pat rep fuel cs

/-- JavaScript `String.prototype.replaceAll` on a literal (non-regex) search
string, as used for the `$\x7b\x7bKEY\x7d\x7d` tokens; the tokens handed to
it are never empty, so the empty-pattern case just returns the text. -/
def replaceAll (s pat rep : String) : String :=
  if pat.data.isEmpty then s else ⟨replaceAllAux pat.data rep.data s.data.length s.data⟩

/-- Decimal digit as a character. -/
def digitChar (n : Nat) : Char := Char.ofNat (48 + n)

/-- Fuel-indexed little-endian decimal digits of a natural number. -/
def natDigitsAux : Nat → Nat → List Char
  | 0, _ => []
  | fuel + 1, n => if n = 0 then [] else digitChar (n % 10) :: natDigitsAux fuel (n / 10)

/-- JavaScript number-to-string conversion for the natural numbers the
engine interpolates into template tokens. -/
def natToStr (n : Nat) : String :=
  if n = 0 then "0" else ⟨(natDigitsAux (n + 1) n).reverse⟩

/-- JavaScript number-to-string conversion for (possibly negative) day
differences. -/
def intToStr (i : Int) : String :=
  if i < 0 then "-" ++ natToStr i.natAbs else natToStr i.toNat

/-- The placeholder token `$\x7b\x7bKEY\x7d\x7d` the templates use. -/
def phToken (key : String) : String := "$\x7b\x7b" ++ key ++ "\x7d\x7d"

/-- Lower-casing as `toLocaleLowerCase('en')` is used on ASCII label and
extractor values. -/
def toLowerStr (s : String) : String := ⟨s.data.map Char.toLower⟩

/-- `configuration.trim_values ? value.trim() : value`. -/
def trimIf (trim : Bool) (v : String) : String := if trim then v.trim else v

/-- Modelled from the spec: `haveCommonElementsArr` of `src/utils.ts` (not
part of the staged sources) — whether the two string arrays intersect. -/
def haveCommonElementsArr (a b : List String) : Bool :=
  a.any (fun x => b.contains x)

/-- Modelled from the spec: `haveEveryElementsArr` of `src/utils.ts` (not
part of the staged sources) — whether every element of the first array is an
element of the second (the second is a superset of the first). -/
def haveEveryElementsArr (a b : List String) : Bool :=
  a.all (fun x => b.contains x)

/-- A pull-request record (`PullRequestInfo` of the pr-collector, restricted
to the fields `transform.ts` reads). Dates are carried as their ISO strings. -/
structure PullRequestInfo where
  number : Nat
  title : String := ""
  htmlURL : String := ""
  status : String := "merged"
  createdAt : String := ""
  mergedAt : Option String := none
  mergeCommitSha : String := ""
  author : String := ""
  body : String := ""
  milestone : Option String := none
  branch : Option String := none
  baseBranch : String := ""
  labels : List String := []
  assignees : List String := []
  requestedReviewers : List String := []
  approvedReviewers : List String := []
deriving DecidableEq, Repr

/-- Diff statistics (`DiffInfo` of the pr-collector). -/
structure DiffInfo where
  changedFiles : Nat := 0
  additions : Nat := 0
  deletions : Nat := 0
  changes : Nat := 0
  commits : Nat := 0
deriving DecidableEq, Repr

/-- A validated (compiled) regex transformer: the regex itself is external
input, so its two observable effects — `value.match(pattern)` being truthy (`isMatch`)
and `value.replace(pattern, target)` — are embedded as abstract functions. -/
structure RegexT where
  isMatch : String → Bool
  repl : String → String

/-- A configured custom placeholder (`Placeholder` of `configuration.ts`):
`transformer` is the already-validated compiled form, `none` standing for a
transformer `validateTransformer` rejects. -/
structure Placeholder where
  name : String
  source : String
  transformer : Option RegexT

/-- A category rule; its regex semantics live in `matchesRules`
(`src/regexUtils.ts`, not part of the staged sources), which the embedding
takes as an opaque parameter, so the rule itself is just its configured
pattern text. -/
structure Rule where
  pattern : String := ""
deriving DecidableEq, Repr

/-- A configured category (`Category` of `configuration.ts`), optional
fields as in the TypeScript interface. -/
structure Category where
  title : Option String := none
  key : Option String := none
  labels : Option (List String) := none
  exclude_labels : Option (List String) := none
  exhaustive : Option Bool := none
  exhaustive_rules : Option Bool := none
  empty_content : Option String := none
  rules : Option (List Rule) := none
deriving DecidableEq, Repr

/-- The slice of the validated configuration the embedded pipeline reads. -/
structure Configuration where
  template : String := ""
  pr_template : String := ""
  empty_template : String := ""
  categories : List Category := []
  ignore_labels : List String := []
  custom_placeholders : List Placeholder := []
  trim_values : Bool := false

/-- A tag date, shallowly embedding the moment.js date: its ISO rendering
and its day index (so `diff(_, 'days')` is a subtraction). -/
structure MomentDate where
  iso : String
  epochDays : Int
deriving DecidableEq, Repr

/-- A tag reference with its optional date. -/
structure TagInfo where
  name : String
  date : Option MomentDate := none
deriving DecidableEq, Repr

/-- The options `buildChangelog` receives (`ReleaseNotesOptions`), restricted
to the fields the embedded code reads. -/
structure ReleaseNotesOptions where
  owner : String
  repo : String
  fromTag : TagInfo
  toTag : TagInfo
  configuration : Configuration

/-- The result of `extractValues(pr, extractor, usecase)` for one validated
extractor: the regex machinery is external, so an extractor is embedded as
the function from a record to its extracted values (`none` = no extraction). -/
abbrev ExtractFn := PullRequestInfo → Option (List String)

/-- First extracted value, guarded as in the source:
`extracted !== null && extracted.length > 0` and then `extracted[0]`. -/
def firstExtracted (ex : ExtractFn) (pr : PullRequestInfo) : Option String :=
  match ex pr with
  | some (k :: _) => some k
  | _ => none

/-- JavaScript `parseInt` on the extracted reference values, which are digit
strings when they parse at all: a string of decimal digits yields its value,
anything else is `NaN` (`none`). -/
def parseIntJS (s : String) : Option Nat :=
  if s.data ≠ [] ∧ s.data.all (fun c => decide ('0' ≤ c) && decide (c ≤ '9'))
  then some (s.data.foldl (fun acc c => acc * 10 + (c.toNat - 48)) 0) else none

/-- One step of the deduplication loop of `buildChangelog` (lines 86-94):
a record whose `duplicate_filter` extraction yields a first value is `set`
into the key-to-record map (a later record overwriting the survivor kept for
its key), any other record is pushed onto the `unmatched` list. -/
def dedupStep (ex : ExtractFn) (acc : List (String × PullRequestInfo) × List PullRequestInfo)
    (pr : PullRequestInfo) : List (String × PullRequestInfo) × List PullRequestInfo :=
  match firstExtracted ex pr with
  | some k => (omapSet acc.1 k pr, acc.2)
  | none => (acc.1, acc.2 ++ [pr])

/-- The deduplication loop over the whole record list. -/
def dedupGo (ex : ExtractFn) (prs : List PullRequestInfo)
    (acc : List (String × PullRequestInfo) × List PullRequestInfo) :
    List (String × PullRequestInfo) × List PullRequestInfo :=
  prs.foldl (dedupStep ex) acc

/-- Deduplication result before the re-sort: the map's values (in key
insertion order) followed by the unmatched records, together with the
reported count of removed records (lines 95-98). -/
def deduplicatePrs (ex : ExtractFn) (prs : List PullRequestInfo) :
    List PullRequestInfo × Nat :=
  let ms := dedupGo ex prs ([], [])
  let deduplicatedPRs := ms.1.map Prod.snd ++ ms.2
  (deduplicatedPRs, prs.length - deduplicatedPRs.length)

/-- The whole `duplicate_filter` pass: deduplicate, then re-sort the
survivors with the configured sort (line 99). `sortPullRequests` lives in
the pr-collector, outside the staged sources, so the sort is an abstract
parameter. -/
def dedupPass (sortFn : List PullRequestInfo → List PullRequestInfo)
    (ex : ExtractFn) (prs : List PullRequestInfo) : List PullRequestInfo × Nat :=
  let dr := deduplicatePrs ex prs
  (sortFn dr.1, dr.2)

/-- The number-to-record map the reference linker builds from the full
record list before any removal (lines 47-50). -/
def linkerMapped (prs : List PullRequestInfo) : List (Nat × PullRequestInfo) :=
  prs.foldl (fun m pr => omapSet m pr.number pr) []

/-- Resolution of one record against the prebuilt map (lines 54-59): first
extracted `reference` value, `parseInt`, lookup; `none` when there is no
extraction, the parse is `NaN`, or the number is not a known record. -/
def linkerResolves (refEx : ExtractFn) (mapped : List (Nat × PullRequestInfo))
    (pr : PullRequestInfo) : Option PullRequestInfo :=
  match firstExtracted refEx pr with
  | some s =>
    match parseIntJS s with
    | some n => omapGet mapped n
    | none => none
  | none => none

/-- One step of the reference-linking loop (lines 53-71): a record that
resolves to a parent is appended to that parent's children (and dropped from
the root list), any other record is kept as a root (`remappedPrs`). The
children are carried as (parent, child) pairs since the TypeScript mutates
the shared record objects in place. -/
def linkerStep (refEx : ExtractFn) (mapped : List (Nat × PullRequestInfo))
    (acc : List PullRequestInfo × List (PullRequestInfo × PullRequestInfo))
    (pr : PullRequestInfo) :
    List PullRequestInfo × List (PullRequestInfo × PullRequestInfo) :=
  match linkerResolves refEx mapped pr with
  | some parent => (acc.1, acc.2 ++ [(parent, pr)])
  | none => (acc.1 ++ [pr], acc.2)

/-- The reference-linking pass: remaining root records and the attached
(parent, child) pairs. -/
def linker (refEx : ExtractFn) (prs : List PullRequestInfo) :
    List PullRequestInfo × List (PullRequestInfo × PullRequestInfo) :=
  prs.foldl (linkerStep refEx (linkerMapped prs)) ([], [])

/-- The `childPrs` attached to one record by the linking pass. -/
def childPrsOf (pairs : List (PullRequestInfo × PullRequestInfo))
    (parent : PullRequestInfo) : List PullRequestInfo :=
  (pairs.filter (fun q => q.1 = parent)).map Prod.snd

/-- The semantics of `matchesRules(rules, pr, exhaustive)` of
`src/regexUtils.ts`, which is not part of the staged sources: the classifier
treats it as an opaque boolean predicate, so the embedding passes it around
as a parameter. -/
abbrev MatchesRulesFn := List Rule → PullRequestInfo → Bool → Bool

/-- The label/rule part of category matching (lines 187-220 of
`buildChangelog`, after the exclude-label gate): exhaustive mode
(`exhaustive === true` with labels or rules present) needs every category
label on the record and then, only if the labels matched, all/any rules per
`exhaustive_rules` (default `true`); non-exhaustive mode needs a common
label and falls back to the rules (default `exhaustive_rules` `false`) only
if no label matched. -/
def categoryMatchCore (mrules : MatchesRulesFn) (category : Category)
    (pr : PullRequestInfo) : Bool :=
  if category.exhaustive = some true ∧ (category.labels ≠ none ∨ category.rules ≠ none) then
    let matched :=
      match category.labels with
      | some ls => haveEveryElementsArr (ls.map toLowerStr) pr.labels
      | none => false
    let exhaustiveRules := category.exhaustive_rules.getD true
    match category.rules with
    | some rs => if matched then mrules rs pr exhaustiveRules else matched
    | none => matched
  else
    let matched :=
      match category.labels with
      | some ls => haveCommonElementsArr (ls.map toLowerStr) pr.labels
      | none => false
    let exhaustiveRules := category.exhaustive_rules.getD false
    match category.rules with
    | some rs => if !matched then mrules rs pr exhaustiveRules else matched
    | none => matched

/-- Category matching for one record and one category, lines 170-225 of
`buildChangelog`: an exclude-label hit (`continue`) skips the category,
otherwise the label/rule check of `categoryMatchCore` decides. -/
def categoryMatchesPr (mrules : MatchesRulesFn) (category : Category)
    (pr : PullRequestInfo) : Bool :=
  match category.exclude_labels with
  | some ex =>
    if haveCommonElementsArr (ex.map toLowerStr) pr.labels then false
    else categoryMatchCore mrules category pr
  | none => categoryMatchCore mrules category pr

/-- The classification buckets of `buildChangelog` (lines 139-150): the
per-category body lists are carried positionally alongside the configured
category list (the TypeScript keys its `Map` by the distinct category
objects, in configuration order). -/
structure ClassifyAcc where
  perCategory : List (List String)
  categorizedPrs : List String
  ignoredPrs : List String
  openPrs : List String
  uncategorizedPrs : List String
deriving DecidableEq, Repr

/-- The empty buckets, one per configured category. -/
def classifyInit (categories : List Category) : ClassifyAcc :=
  ⟨categories.map (fun _ => []), [], [], [], []⟩

/-- The catch-all append of lines 229-234: the record body is pushed onto
the first category with no labels (or an empty label list) and no rules, if
any. -/
def addToCatchAll (categories : List Category) (per : List (List String))
    (body : String) : List (List String) :=
  match categories, per with
  | c :: cs, l :: ls =>
    if (match c.labels with | none => true | some lbls => lbls.isEmpty) && decide (c.rules = none) then
      (l ++ [body]) :: ls
    else l :: addToCatchAll cs ls body
  | _, _ => per

/-- One iteration of the classification loop (lines 153-239) for a record
and its rendered body: ignore-labelled records go to the ignored bucket and
nothing else; otherwise open records are also noted, every matching category
receives the body, and the record lands in exactly one of the categorized or
uncategorized buckets (the latter together with the catch-all category). -/
def classifyStep (mrules : MatchesRulesFn) (categories : List Category)
    (ignoreLabels : List String) (acc : ClassifyAcc)
    (prBody : PullRequestInfo × String) : ClassifyAcc :=
  let pr := prBody.1
  let body := prBody.2
  if haveCommonElementsArr (ignoreLabels.map toLowerStr) pr.labels then
    { acc with ignoredPrs := acc.ignoredPrs ++ [body] }
  else
    let acc :=
      if pr.status = "open" then { acc with openPrs := acc.openPrs ++ [body] } else acc
    let matchedList := categories.map (fun c => categoryMatchesPr mrules c pr)
    let per := acc.perCategory.zipWith (fun l m => if m then l ++ [body] else l) matchedList
    let matchedOnce := matchedList.any id
    if matchedOnce then
      { acc with perCategory := per, categorizedPrs := acc.categorizedPrs ++ [body] }
    else
      { acc with
        perCategory := addToCatchAll categories per body,
        uncategorizedPrs := acc.uncategorizedPrs ++ [body] }

/-- The classification loop over all (record, body) pairs. -/
def classify (mrules : MatchesRulesFn) (categories : List Category)
    (ignoreLabels : List String) (prBodies : List (PullRequestInfo × String)) :
    ClassifyAcc :=
  prBodies.foldl (classifyStep mrules categories ignoreLabels) (classifyInit categories)

/-- The per-record custom placeholder value map
(`placeholderPrMap : Map<string, string[]>`). -/
abbrev PrValueMap := List (String × List String)

/-- Processing of one custom placeholder inside `handlePlaceholder`
(lines 443-464): apply the validated transformer's replace to the original
value; the result counts as a match when it is truthy (nonempty) and either
differs from the input or the input itself matches the pattern; a match is
recorded in the per-record map (when one is being kept) and substituted for
the placeholder's own token. -/
def handlePlaceholderOne (trim : Bool) (value : String)
    (acc : String × Option PrValueMap) (ph : Placeholder) :
    String × Option PrValueMap :=
  match ph.transformer with
  | none => acc
  | some tr =>
    let extractedValue := tr.repl value
    if extractedValue ≠ "" ∧
        (extractedValue ≠ value ∨ (extractedValue = value ∧ tr.isMatch value = true)) then
      let prMap :=
        match acc.2 with
        | some m => some (createOrSet m ph.name extractedValue)
        | none => none
      (replaceAll acc.1 (phToken ph.name) (trimIf trim extractedValue), prMap)
    else acc

/-- `handlePlaceholder` (lines 431-467): substitute the built-in token for
the key, then run every custom placeholder configured on that key. -/
def handlePlaceholder (template key value : String)
    (placeholders : List (String × List Placeholder))
    (placeholderPrMap : Option PrValueMap) (cfg : Configuration) :
    String × Option PrValueMap :=
  let transformed := replaceAll template (phToken key) (trimIf cfg.trim_values value)
  match omapGet placeholders key with
  | none => (transformed, placeholderPrMap)
  | some phs => phs.foldl (handlePlaceholderOne cfg.trim_values value) (transformed, placeholderPrMap)

/-- `replacePlaceholders` (lines 408-429): array placeholders first, then
the scalar placeholders, each through `handlePlaceholder`. -/
def replacePlaceholders (template : String)
    (arrayPlaceholderMap placeholderMap : List (String × String))
    (placeholders : List (String × List Placeholder))
    (placeholderPrMap : Option PrValueMap) (cfg : Configuration) :
    String × Option PrValueMap :=
  let acc := arrayPlaceholderMap.foldl
    (fun (acc : String × Option PrValueMap) kv =>
      handlePlaceholder acc.1 kv.1 kv.2 placeholders acc.2 cfg)
    (template, placeholderPrMap)
  placeholderMap.foldl
    (fun (acc : String × Option PrValueMap) kv =>
      handlePlaceholder acc.1 kv.1 kv.2 placeholders acc.2 cfg)
    acc

/-- `fillArrayPlaceholders` (lines 469-479): nothing for an empty value
list, otherwise one `KEY[i]` entry per element and a `KEY[*]` entry holding
the elements joined with a comma and a space. -/
def fillArrayPlaceholders (placeholderMap : List (String × String)) (key : String)
    (values : List String) : List (String × String) :=
  if values.length = 0 then placeholderMap
  else
    let m := values.enum.foldl
      (fun m iv => omapSet m (key ++ "[" ++ natToStr iv.1 ++ "]") iv.2) placeholderMap
    omapSet m (key ++ "[*]") (String.intercalate ", " values)

/-- `replacePrPlaceholders` (lines 517-530): for every tracked custom
placeholder, substitute each `NAME[i]` token with the i-th recorded value
(trimmed when configured) and the `NAME[*]` token with all recorded values
joined with the empty string. -/
def replacePrPlaceholders (template : String) (placeholderPrMap : PrValueMap)
    (cfg : Configuration) : String :=
  placeholderPrMap.foldl
    (fun t kv =>
      let t1 := kv.2.enum.foldl
        (fun t2 iv =>
          replaceAll t2 (phToken (kv.1 ++ "[" ++ natToStr iv.1 ++ "]")) (trimIf cfg.trim_values iv.2))
        t
      replaceAll t1 (phToken (kv.1 ++ "[*]")) (String.join kv.2))
    template

/-- The custom placeholders grouped by the source key they react to
(lines 123-126 and 343-346). -/
def placeholdersBySource (phs : List Placeholder) : List (String × List Placeholder) :=
  phs.foldl (fun m ph => createOrSet m ph.source ph) []

/-- `fillAdditionalPlaceholders` (lines 352-373): the document-level
placeholder entries for owner, repository, tags, their dates, the day
difference and the release diff link. -/
def fillAdditionalPlaceholders (options : ReleaseNotesOptions)
    (placeholderMap : List (String × String)) : List (String × String) :=
  let m := omapSet placeholderMap "OWNER" options.owner
  let m := omapSet m "REPO" options.repo
  let m := omapSet m "FROM_TAG" options.fromTag.name
  let m := omapSet m "FROM_TAG_DATE" ((options.fromTag.date.map MomentDate.iso).getD "")
  let m := omapSet m "TO_TAG" options.toTag.name
  let m := omapSet m "TO_TAG_DATE" ((options.toTag.date.map MomentDate.iso).getD "")
  let m :=
    match options.fromTag.date, options.toTag.date with
    | some fromDate, some toDate =>
      omapSet m "DAYS_SINCE" (intToStr (toDate.epochDays - fromDate.epochDays))
    | _, _ => omapSet m "DAYS_SINCE" ""
  omapSet m "RELEASE_DIFF"
    ("https://github.com/" ++ options.owner ++ "/" ++ options.repo ++ "/compare/" ++
      options.fromTag.name ++ "..." ++ options.toTag.name)

/-- `replaceEmptyTemplate` (lines 342-350): render a template against the
document-level placeholders only, with the custom placeholders grouped by
source and no per-record value map. -/
def replaceEmptyTemplate (template : String) (options : ReleaseNotesOptions) : String :=
  let placeholders := placeholdersBySource options.configuration.custom_placeholders
  let placeholderMap := fillAdditionalPlaceholders options []
  (replacePlaceholders template [] placeholderMap placeholders none options.configuration).1

/-- The head of `buildChangelog` (lines 24-33): an empty record list skips
the whole pipeline and renders the configured `empty_template` directly;
otherwise the sorted/linked/deduplicated/classified/rendered pipeline runs.
The nonempty-input pipeline is the composition of the passes embedded above
and is abstracted here as the continuation `rest`, since the claims about it
are settled against those passes componentwise. -/
def buildChangelog
    (rest : DiffInfo → List PullRequestInfo → ReleaseNotesOptions → String)
    (diffInfo : DiffInfo) (origPrs : List PullRequestInfo)
    (options : ReleaseNotesOptions) : String :=
  if origPrs.length = 0 then
    replaceEmptyTemplate options.configuration.empty_template options
  else rest diffInfo origPrs options

/-! ### Definitions used by the theorems: invariants and concrete instances -/

/-- The well-formedness the dedup map keeps: every stored record extracts to
its own key, and the keys are pairwise distinct. -/
def DedupInv (ex : ExtractFn) (m : List (String × PullRequestInfo)) : Prop :=
  (∀ p ∈ m, firstExtracted ex p.2 = some p.1) ∧ (m.map Prod.fst).Nodup

/-- The last record of the list whose extraction yields the key `k`. -/
def lastKeyed (ex : ExtractFn) (k : String) (prs : List PullRequestInfo) :
    Option PullRequestInfo :=
  (prs.filter (fun pr => decide (firstExtracted ex pr = some k))).getLast?

/-- A concrete record with only its number set. -/
def mkPR (n : Nat) : PullRequestInfo := { number := n }

/-- A duplicate filter under which every record extracts the same key. -/
def exSameKey : ExtractFn := fun _ => some ["k"]

/-- A rule semantics under which every rule holds for every record. -/
def mrulesAlwaysTrue : MatchesRulesFn := fun _ _ _ => true

/-- An exhaustive category with a required label and an exclude label. -/
def catBugNotSkip : Category :=
  { labels := some ["bug"], exclude_labels := some ["skip"], exhaustive := some true }

/-- A record carrying exactly the label `bug`. -/
def prBug : PullRequestInfo := { number := 1, labels := ["bug"] }

/-- A default configuration. -/
def cfgDefault : Configuration := {}

/-- A match function that never matches. -/
def mtsFalse : String → Bool := fun _ => false

/-- A replace function producing the empty string. -/
def rpEmpty : String → String := fun _ => ""

/-- A placeholder on source `K` whose transformer replaces everything with
the empty string. -/
def phEmptyRepl : Placeholder :=
  { name := "N", source := "K", transformer := some { isMatch := mtsFalse, repl := rpEmpty } }

/-- Concrete options for the empty-template scenario: no custom
placeholders, `empty_template` set to `No changes.`. -/
def optsNoChanges : ReleaseNotesOptions :=
  { owner := "octo", repo := "repo", fromTag := { name := "v1" }, toTag := { name := "v2" },
    configuration := { empty_template := "No changes." } }

/-! ### Ordered-map lemmas -/

theorem omapGet_omapSet_self {α β : Type} [DecidableEq α] (m : List (α × β)) (k : α) (v : β) :
    omapGet (omapSet m k v) k = some v := by
  induction m with
  | nil => simp [omapSet, omapGet]
  | cons p rest ih =>
    obtain ⟨a, b⟩ := p
    by_cases ha : a = k <;> simp [omapSet, omapGet, ha, ih]

theorem omapGet_omapSet_ne {α β : Type} [DecidableEq α] (m : List (α × β)) (k q : α) (v : β)
    (h : q ≠ k) : omapGet (omapSet m k v) q = omapGet m q := by
  induction m with
  | nil => simp [omapSet, omapGet, Ne.symm h]
  | cons p rest ih =>
    obtain ⟨a, b⟩ := p
    by_cases ha : a = k
    · rw [show omapSet ((a, b) :: rest) k v = (k, v) :: rest by simp [omapSet, ha]]
      rw [show omapGet ((k, v) :: rest) q = omapGet rest q by simp [omapGet, Ne.symm h]]
      rw [show omapGet ((a, b) :: rest) q = omapGet rest q by
        simp [omapGet]
        intro hq
        exact absurd (hq.symm.trans ha).symm (Ne.symm h)]
    · rw [show omapSet ((a, b) :: rest) k v = (a, b) :: omapSet rest k v by simp [omapSet, ha]]
      by_cases hq : a = q
      · simp [omapGet, hq]
      · simp [omapGet, hq, ih]

theorem omapSet_length_le {α β : Type} [DecidableEq α] (m : List (α × β)) (k : α) (v : β) :
    (omapSet m k v).length ≤ m.length + 1 := by
  induction m with
  | nil => simp [omapSet]
  | cons p rest ih =>
    obtain ⟨a, b⟩ := p
    by_cases ha : a = k <;> simp [omapSet, ha] <;> omega

theorem omapSet_fst_mem {α β : Type} [DecidableEq α] (k x : α) (v : β) :
    ∀ m : List (α × β), x ∈ (omapSet m k v).map Prod.fst → x ∈ m.map Prod.fst ∨ x = k := by
  intro m
  induction m with
  | nil =>
    intro hx
    right
    simpa [omapSet] using hx
  | cons p rest ih =>
    obtain ⟨a, b⟩ := p
    by_cases ha : a = k
    · intro hx
      rw [show omapSet ((a, b) :: rest) k v = (k, v) :: rest by simp [omapSet, ha]] at hx
      simp only [List.map_cons, List.mem_cons] at hx ⊢
      rcases hx with hx | hx
      · right; exact hx
      · left; right; exact hx
    · intro hx
      rw [show omapSet ((a, b) :: rest) k v = (a, b) :: omapSet rest k v by simp [omapSet, ha]] at hx
      simp only [List.map_cons, List.mem_cons] at hx ⊢
      rcases hx with hx | hx
      · left; left; exact hx
      · rcases ih hx with hh | hh
        · left; right; exact hh
        · right; exact hh

/-! ### Deduplication lemmas -/

theorem dedupInv_nil (ex : ExtractFn) : DedupInv ex [] := by
  constructor <;> simp

theorem dedupInv_omapSet (ex : ExtractFn) (m : List (String × PullRequestInfo))
    (k : String) (v : PullRequestInfo) (hm : DedupInv ex m)
    (hv : firstExtracted ex v = some k) : DedupInv ex (omapSet m k v) := by
  obtain ⟨hkeys, hnodup⟩ := hm
  induction m with
  | nil =>
    constructor
    · intro p hp
      simp [omapSet] at hp
      subst hp
      exact hv
    · simp [omapSet]
  | cons p rest ih =>
    obtain ⟨a, b⟩ := p
    simp only [List.map_cons, List.nodup_cons] at hnodup
    by_cases ha : a = k
    · rw [show omapSet ((a, b) :: rest) k v = (k, v) :: rest by simp [omapSet, ha]]
      constructor
      · intro q hq
        rcases List.mem_cons.mp hq with hq | hq
        · subst hq; exact hv
        · exact hkeys q (List.mem_cons_of_mem _ hq)
      · simp only [List.map_cons, List.nodup_cons]
        exact ⟨ha ▸ hnodup.1, hnodup.2⟩
    · rw [show omapSet ((a, b) :: rest) k v = (a, b) :: omapSet rest k v by simp [omapSet, ha]]
      have hrest : ∀ p ∈ rest, firstExtracted ex p.2 = some p.1 := by
        intro q hq
        exact hkeys q (List.mem_cons_of_mem _ hq)
      have hres := ih hrest hnodup.2
      constructor
      · intro q hq
        rcases List.mem_cons.mp hq with hq | hq
        · subst hq
          exact hkeys (a, b) (List.mem_cons_self _ _)
        · exact hres.1 q hq
      · simp only [List.map_cons, List.nodup_cons]
        refine ⟨?_, hres.2⟩
        intro hmem
        rcases omapSet_fst_mem k a v rest hmem with hmem | hmem
        · exact hnodup.1 hmem
        · exact ha hmem

/-- The value list of a well-formed dedup map, filtered on one key, is the
singleton of the record the map keeps at that key (or empty). -/
theorem dedupMap_values_filter (ex : ExtractFn) (k : String) :
    ∀ m : List (String × PullRequestInfo), DedupInv ex m →
      (m.map Prod.snd).filter (fun v => decide (firstExtracted ex v = some k))
        = (omapGet m k).toList := by
  intro m
  induction m with
  | nil => intro _; simp [omapGet]
  | cons p rest ih =>
    obtain ⟨a, b⟩ := p
    intro hinv
    obtain ⟨hkeys, hnodup⟩ := hinv
    simp only [List.map_cons, List.nodup_cons] at hnodup
    have hb : firstExtracted ex b = some a := hkeys (a, b) (List.mem_cons_self _ _)
    have hrestinv : DedupInv ex rest :=
      ⟨fun q hq => hkeys q (List.mem_cons_of_mem _ hq), hnodup.2⟩
    by_cases ha : a = k
    · subst ha
      have hfil : (rest.map Prod.snd).filter (fun v => decide (firstExtracted ex v = some a)) = [] := by
        apply List.filter_eq_nil_iff.mpr
        intro v hv
        simp only [List.mem_map] at hv
        obtain ⟨q, hq, hqv⟩ := hv
        have : firstExtracted ex v = some q.1 := hqv ▸ hrestinv.1 q hq
        simp only [this, decide_eq_true_eq, Option.some.injEq]
        intro hcontr
        exact hnodup.1 (hcontr ▸ List.mem_map_of_mem Prod.fst hq)
      simp [omapGet, List.filter_cons, hb, hfil]
    · have : (decide (firstExtracted ex b = some k)) = false := by
        simp [hb]
        exact fun hc => ha hc
      simp [omapGet, List.filter_cons, this, ha, ih hrestinv]

theorem dedupGo_append (ex : ExtractFn) (l₁ l₂ : List PullRequestInfo)
    (acc : List (String × PullRequestInfo) × List PullRequestInfo) :
    dedupGo ex (l₁ ++ l₂) acc = dedupGo ex l₂ (dedupGo ex l₁ acc) := by
  simp [dedupGo, List.foldl_append]

theorem dedupGo_inv (ex : ExtractFn) (prs : List PullRequestInfo)
    (acc : List (String × PullRequestInfo) × List PullRequestInfo)
    (hinv : DedupInv ex acc.1) : DedupInv ex (dedupGo ex prs acc).1 := by
  induction prs generalizing acc with
  | nil => exact hinv
  | cons pr rest ih =>
    rw [show dedupGo ex (pr :: rest) acc = dedupGo ex rest (dedupStep ex acc pr) from rfl]
    apply ih
    unfold dedupStep
    cases hk : firstExtracted ex pr with
    | some k => exact dedupInv_omapSet ex acc.1 k pr hinv hk
    | none => exact hinv

theorem dedupGo_fst_get (ex : ExtractFn) (k : String) (prs : List PullRequestInfo) :
    ∀ acc, omapGet (dedupGo ex prs acc).1 k =
      match lastKeyed ex k prs with
      | some v => some v
      | none => omapGet acc.1 k := by
  induction prs using List.reverseRecOn with
  | nil => intro acc; simp [dedupGo, lastKeyed]
  | append_singleton l a ih =>
    intro acc
    rw [dedupGo_append]
    unfold lastKeyed
    rw [List.filter_append]
    cases hk : firstExtracted ex a with
    | some k₀ =>
      rw [show dedupGo ex [a] (dedupGo ex l acc) =
        dedupStep ex (dedupGo ex l acc) a from rfl]
      unfold dedupStep
      rw [hk]
      by_cases hkk : k₀ = k
      · subst hkk
        rw [show (List.filter (fun pr => decide (firstExtracted ex pr = some k₀)) [a]) = [a] by
          simp [List.filter, hk]]
        rw [List.getLast?_concat]
        exact omapGet_omapSet_self _ _ _
      · rw [show (List.filter (fun pr => decide (firstExtracted ex pr = some k)) [a]) = [] by
          simp [List.filter, hk, hkk]]
        rw [List.append_nil, omapGet_omapSet_ne _ _ _ _ (fun hh => hkk hh.symm)]
        exact ih acc
    | none =>
      rw [show dedupGo ex [a] (dedupGo ex l acc) =
        dedupStep ex (dedupGo ex l acc) a from rfl]
      unfold dedupStep
      rw [hk]
      rw [show (List.filter (fun pr => decide (firstExtracted ex pr = some k)) [a]) = [] by
        simp [List.filter, hk]]
      rw [List.append_nil]
      exact ih acc

theorem dedupGo_snd (ex : ExtractFn) (prs : List PullRequestInfo) :
    ∀ acc, (dedupGo ex prs acc).2 =
      acc.2 ++ prs.filter (fun pr => decide (firstExtracted ex pr = none)) := by
  induction prs with
  | nil => intro acc; simp [dedupGo]
  | cons pr rest ih =>
    intro acc
    rw [show dedupGo ex (pr :: rest) acc = dedupGo ex rest (dedupStep ex acc pr) from rfl]
    rw [ih]
    unfold dedupStep
    cases hk : firstExtracted ex pr with
    | some k => simp [List.filter_cons, hk]
    | none => simp [List.filter_cons, hk]

theorem dedupGo_length (ex : ExtractFn) (prs : List PullRequestInfo) :
    ∀ acc, (dedupGo ex prs acc).1.length + (dedupGo ex prs acc).2.length ≤
      acc.1.length + acc.2.length + prs.length := by
  induction prs with
  | nil => intro acc; simp [dedupGo]
  | cons pr rest ih =>
    intro acc
    rw [show dedupGo ex (pr :: rest) acc = dedupGo ex rest (dedupStep ex acc pr) from rfl]
    have h := ih (dedupStep ex acc pr)
    have hstep : (dedupStep ex acc pr).1.length + (dedupStep ex acc pr).2.length ≤
        acc.1.length + acc.2.length + 1 := by
      unfold dedupStep
      cases hk : firstExtracted ex pr with
      | some k =>
        have := omapSet_length_le acc.1 k pr
        simp only []
        omega
      | none => simp; omega
    simp only [List.length_cons]
    omega

/-- Survivor characterization per key: among the records of the pre-sort
dedup output whose extraction yields `k`, exactly the last such input record
survives. -/
theorem dedup_filter_eq (ex : ExtractFn) (prs : List PullRequestInfo) (k : String) :
    (deduplicatePrs ex prs).1.filter (fun pr => decide (firstExtracted ex pr = some k))
      = (lastKeyed ex k prs).toList := by
  unfold deduplicatePrs
  simp only [List.filter_append]
  have hinv : DedupInv ex (dedupGo ex prs ([], [])).1 :=
    dedupGo_inv ex prs ([], []) (dedupInv_nil ex)
  have hval := dedupMap_values_filter ex k (dedupGo ex prs ([], [])).1 hinv
  have hget := dedupGo_fst_get ex k prs ([], [])
  have hsnd := dedupGo_snd ex prs ([], [])
  have hunmatched :
      (dedupGo ex prs ([], [])).2.filter (fun pr => decide (firstExtracted ex pr = some k)) = [] := by
    apply List.filter_eq_nil_iff.mpr
    intro v hv
    rw [hsnd] at hv
    simp only [List.nil_append, List.mem_filter, decide_eq_true_eq] at hv
    simp [hv.2]
  rw [hval, hunmatched, hget, List.append_nil]
  cases lastKeyed ex k prs <;> simp [omapGet]

/-- Records the duplicate filter does not match are all kept. -/
theorem dedup_none_mem (ex : ExtractFn) (prs : List PullRequestInfo)
    (pr : PullRequestInfo) (hmem : pr ∈ prs) (hnone : firstExtracted ex pr = none) :
    pr ∈ (deduplicatePrs ex prs).1 := by
  unfold deduplicatePrs
  simp only [List.mem_append]
  right
  rw [dedupGo_snd]
  simp only [List.nil_append, List.mem_filter, decide_eq_true_eq]
  exact ⟨hmem, hnone⟩

/-- The pre-sort dedup output never grows. -/
theorem dedup_length_le (ex : ExtractFn) (prs : List PullRequestInfo) :
    (deduplicatePrs ex prs).1.length ≤ prs.length := by
  unfold deduplicatePrs
  have h := dedupGo_length ex prs ([], [])
  simpa using h

/-- C1. For every record list and every `duplicate_filter` extractor, the
deduplicator keeps, for each extracted key, exactly the last record in
processing order that produced that key; records yielding no key are all
retained; the survivors are then re-sorted with the configured sort (any
sort being a permutation), and the reported removed count is the input
length minus the output length. -/
theorem c1_dedup_last_survivor (sortFn : List PullRequestInfo → List PullRequestInfo)
    (ex : ExtractFn) (prs : List PullRequestInfo) (k : String)
    (hsort : ∀ l, List.Perm (sortFn l) l) :
    ((dedupPass sortFn ex prs).1.filter (fun pr => decide (firstExtracted ex pr = some k))
        = (lastKeyed ex k prs).toList)
    ∧ (∀ pr, pr ∈ prs → firstExtracted ex pr = none → pr ∈ (dedupPass sortFn ex prs).1)
    ∧ (dedupPass sortFn ex prs).2 = prs.length - (dedupPass sortFn ex prs).1.length
    ∧ (dedupPass sortFn ex prs).1.length ≤ prs.length := by
  have hperm : List.Perm (dedupPass sortFn ex prs).1 (deduplicatePrs ex prs).1 :=
    hsort (deduplicatePrs ex prs).1
  have hlen : (dedupPass sortFn ex prs).1.length = (deduplicatePrs ex prs).1.length :=
    hperm.length_eq
  refine ⟨?_, ?_, ?_, ?_⟩
  · have hfil := hperm.filter (fun pr => decide (firstExtracted ex pr = some k))
    rw [dedup_filter_eq ex prs k] at hfil
    cases hl : lastKeyed ex k prs with
    | none => rw [hl] at hfil; exact hfil.eq_nil
    | some v =>
      rw [hl] at hfil
      exact List.perm_singleton.mp hfil
  · intro pr hmem hnone
    exact hperm.mem_iff.mpr (dedup_none_mem ex prs pr hmem hnone)
  · rw [hlen]
    rfl
  · rw [hlen]
    exact dedup_length_le ex prs

/-- Witness for C1 at a concrete input: identity sort, two records mapping
to one key. -/
theorem c1_dedup_last_survivor_witness :
    ((dedupPass id exSameKey [mkPR 1, mkPR 2]).1.filter
        (fun pr => decide (firstExtracted exSameKey pr = some "k"))
        = (lastKeyed exSameKey "k" [mkPR 1, mkPR 2]).toList)
    ∧ (∀ pr, pr ∈ [mkPR 1, mkPR 2] → firstExtracted exSameKey pr = none →
        pr ∈ (dedupPass id exSameKey [mkPR 1, mkPR 2]).1)
    ∧ (dedupPass id exSameKey [mkPR 1, mkPR 2]).2 =
        ([mkPR 1, mkPR 2] : List PullRequestInfo).length -
          (dedupPass id exSameKey [mkPR 1, mkPR 2]).1.length
    ∧ (dedupPass id exSameKey [mkPR 1, mkPR 2]).1.length ≤
        ([mkPR 1, mkPR 2] : List PullRequestInfo).length :=
  c1_dedup_last_survivor id exSameKey [mkPR 1, mkPR 2] "k" (fun l => List.Perm.refl l)

/-- C2 counterexample. With two records extracting the same key, the
first-encountered record is dropped, not preserved: the output of the
deduplicator is exactly the second record. -/
theorem c2_dedup_first_preserved_counterexample :
    (dedupPass id exSameKey [mkPR 1, mkPR 2]).1 = [mkPR 2]
    ∧ mkPR 1 ∉ (dedupPass id exSameKey [mkPR 1, mkPR 2]).1 := by
  decide

/-- C2 as amended: for each extracted key the last-encountered (not the
first-encountered) record with that key is preserved, and records for which
the extractor yields no key are never dropped. -/
theorem c2_dedup_last_preserved (sortFn : List PullRequestInfo → List PullRequestInfo)
    (ex : ExtractFn) (prs : List PullRequestInfo) (k : String) (pr : PullRequestInfo)
    (hsort : ∀ l, List.Perm (sortFn l) l)
    (hlast : lastKeyed ex k prs = some pr) :
    pr ∈ (dedupPass sortFn ex prs).1
    ∧ ∀ q, q ∈ prs → firstExtracted ex q = none → q ∈ (dedupPass sortFn ex prs).1 := by
  have hperm : List.Perm (dedupPass sortFn ex prs).1 (deduplicatePrs ex prs).1 :=
    hsort (deduplicatePrs ex prs).1
  constructor
  · have hfil := dedup_filter_eq ex prs k
    rw [hlast] at hfil
    have : pr ∈ (deduplicatePrs ex prs).1.filter
        (fun pr => decide (firstExtracted ex pr = some k)) := by
      rw [hfil]; simp
    exact hperm.mem_iff.mpr (List.mem_of_mem_filter this)
  · intro q hmem hnone
    exact hperm.mem_iff.mpr (dedup_none_mem ex prs q hmem hnone)

/-- Witness for C2's amended theorem at the counterexample input. -/
theorem c2_dedup_last_preserved_witness :
    mkPR 2 ∈ (dedupPass id exSameKey [mkPR 1, mkPR 2]).1
    ∧ ∀ q, q ∈ [mkPR 1, mkPR 2] → firstExtracted exSameKey q = none →
        q ∈ (dedupPass id exSameKey [mkPR 1, mkPR 2]).1 :=
  c2_dedup_last_preserved id exSameKey [mkPR 1, mkPR 2] "k" (mkPR 2)
    (fun l => List.Perm.refl l) (by decide)

/-! ### Reference-linker lemmas -/

theorem linker_roots_mem (refEx : ExtractFn) (mapped : List (Nat × PullRequestInfo))
    (prs : List PullRequestInfo) :
    ∀ acc x, x ∈ (prs.foldl (linkerStep refEx mapped) acc).1 →
      x ∈ acc.1 ∨ (x ∈ prs ∧ linkerResolves refEx mapped x = none) := by
  induction prs with
  | nil => intro acc x hx; exact Or.inl hx
  | cons pr rest ih =>
    intro acc x hx
    rw [List.foldl_cons] at hx
    rcases ih (linkerStep refEx mapped acc pr) x hx with hx | hx
    · unfold linkerStep at hx
      cases hres : linkerResolves refEx mapped pr with
      | some parent =>
        rw [hres] at hx
        exact Or.inl hx
      | none =>
        rw [hres] at hx
        rcases List.mem_append.mp hx with hx | hx
        · exact Or.inl hx
        · simp only [List.mem_singleton] at hx
          subst hx
          exact Or.inr ⟨List.mem_cons_self _ _, hres⟩
    · exact Or.inr ⟨List.mem_cons_of_mem _ hx.1, hx.2⟩

theorem linker_pairs_grow (refEx : ExtractFn) (mapped : List (Nat × PullRequestInfo))
    (prs : List PullRequestInfo) :
    ∀ acc a, a ∈ acc.2 → a ∈ (prs.foldl (linkerStep refEx mapped) acc).2 := by
  induction prs with
  | nil => intro acc a ha; exact ha
  | cons pr rest ih =>
    intro acc a ha
    rw [List.foldl_cons]
    apply ih
    unfold linkerStep
    cases linkerResolves refEx mapped pr with
    | some parent => simp only [List.mem_append]; exact Or.inl ha
    | none => exact ha

theorem linker_pairs_mem (refEx : ExtractFn) (mapped : List (Nat × PullRequestInfo))
    (prs : List PullRequestInfo) :
    ∀ acc pr parent, pr ∈ prs → linkerResolves refEx mapped pr = some parent →
      (parent, pr) ∈ (prs.foldl (linkerStep refEx mapped) acc).2 := by
  induction prs with
  | nil => intro acc pr parent h; simp at h
  | cons q rest ih =>
    intro acc pr parent hmem hres
    rw [List.foldl_cons]
    rcases List.mem_cons.mp hmem with hq | hq
    · subst hq
      apply linker_pairs_grow
      unfold linkerStep
      rw [hres]
      simp
    · exact ih _ pr parent hq hres

/-- C3 counterexample. A single record extracting its own number is removed
from the root list and attached as a child of itself, contradicting the
claim that a self-referencing record stays a root and never appears among
its own children. -/
theorem c3_self_reference_counterexample :
    (linker (fun _ => some ["5"]) [mkPR 5]).1 = []
    ∧ childPrsOf (linker (fun _ => some ["5"]) [mkPR 5]).2 (mkPR 5) = [mkPR 5] := by
  decide

/-- C3 as amended: a record whose reference extractor yields its own number
(witnessed by the prebuilt number map resolving that number to the record
itself, the lookup running against the original root set) is removed from
the root list and attached as a child of itself. -/
theorem c3_self_reference_child (refEx : ExtractFn) (prs : List PullRequestInfo)
    (pr : PullRequestInfo) (hmem : pr ∈ prs)
    (hnum : (firstExtracted refEx pr).bind parseIntJS = some pr.number)
    (hmap : omapGet (linkerMapped prs) pr.number = some pr) :
    pr ∉ (linker refEx prs).1 ∧ (pr, pr) ∈ (linker refEx prs).2 := by
  have hres : linkerResolves refEx (linkerMapped prs) pr = some pr := by
    unfold linkerResolves
    cases hfe : firstExtracted refEx pr with
    | none => rw [hfe] at hnum; simp at hnum
    | some s =>
      rw [hfe] at hnum
      rw [show (Option.some s).bind parseIntJS = parseIntJS s from rfl] at hnum
      show (match parseIntJS s with
        | some n => omapGet (linkerMapped prs) n
        | none => none) = some pr
      rw [hnum]
      exact hmap
  constructor
  · intro hx
    rcases linker_roots_mem refEx (linkerMapped prs) prs ([], []) pr hx with hx | hx
    · simp at hx
    · rw [hres] at hx
      exact Option.noConfusion hx.2
  · exact linker_pairs_mem refEx (linkerMapped prs) prs ([], []) pr pr hmem hres

/-- Witness for C3's amended theorem: a concrete self-referencing record. -/
theorem c3_self_reference_child_witness :
    mkPR 7 ∉ (linker (fun _ => some ["7"]) [mkPR 7]).1
    ∧ (mkPR 7, mkPR 7) ∈ (linker (fun _ => some ["7"]) [mkPR 7]).2 :=
  c3_self_reference_child (fun _ => some ["7"]) [mkPR 7] (mkPR 7)
    (by decide) (by decide) (by decide)

/-! ### Classifier lemmas -/

theorem classify_fold_counts (mrules : MatchesRulesFn) (categories : List Category)
    (ignoreLabels : List String) (prBodies : List (PullRequestInfo × String)) :
    ∀ acc : ClassifyAcc,
      (prBodies.foldl (classifyStep mrules categories ignoreLabels) acc).categorizedPrs.length
        + (prBodies.foldl (classifyStep mrules categories ignoreLabels) acc).uncategorizedPrs.length
      = acc.categorizedPrs.length + acc.uncategorizedPrs.length
        + (prBodies.filter
            (fun pb => !haveCommonElementsArr (ignoreLabels.map toLowerStr) pb.1.labels)).length := by
  induction prBodies with
  | nil => intro acc; simp
  | cons pb rest ih =>
    intro acc
    rw [List.foldl_cons, ih, List.filter_cons]
    cases hign : haveCommonElementsArr (ignoreLabels.map toLowerStr) pb.1.labels with
    | true => simp [classifyStep, hign]
    | false =>
      by_cases hopen : pb.1.status = "open" <;>
        cases hmat : (categories.map (fun c => categoryMatchesPr mrules c pb.1)).any id <;>
          simp [classifyStep, hign, hopen, hmat] <;> omega

/-- C5. Classifier totals invariant: the categorized count plus the
uncategorized count equals the number of input records not routed to the
ignored bucket. -/
theorem c5_classifier_totals (mrules : MatchesRulesFn) (categories : List Category)
    (ignoreLabels : List String) (prBodies : List (PullRequestInfo × String)) :
    (classify mrules categories ignoreLabels prBodies).categorizedPrs.length
      + (classify mrules categories ignoreLabels prBodies).uncategorizedPrs.length
    = (prBodies.filter
        (fun pb => !haveCommonElementsArr (ignoreLabels.map toLowerStr) pb.1.labels)).length := by
  unfold classify
  rw [classify_fold_counts]
  simp [classifyInit]

theorem haveCommon_iff (a b : List String) :
    haveCommonElementsArr a b = true ↔ ∃ x, x ∈ a ∧ x ∈ b := by
  simp [haveCommonElementsArr, List.any_eq_true]

theorem haveEvery_iff (a b : List String) :
    haveEveryElementsArr a b = true ↔ ∀ x, x ∈ a → x ∈ b := by
  simp [haveEveryElementsArr, List.all_eq_true]

/-- C4 counterexample. An exhaustive category that defines rules but leaves
labels unset never matches: with a rule semantics under which every rule
holds, the record is still not matched into the category. -/
theorem c4_exhaustive_rules_only_counterexample :
    categoryMatchesPr (fun _ _ _ => true)
      { exhaustive := some true, rules := some [{ pattern := "r" }] } (mkPR 1) = false := by
  decide

/-- C4 as amended: under exhaustive mode, a category that defines rules but
leaves labels unset matches no record at all — `matched` starts `false` and
the rule check is gated on a prior label match, so the rules are never even
consulted (for any rule semantics and any record). -/
theorem c4_exhaustive_rules_only_never_matches (mrules : MatchesRulesFn)
    (category : Category) (pr : PullRequestInfo)
    (hex : category.exhaustive = some true)
    (hlab : category.labels = none)
    (hrules : category.rules ≠ none) :
    categoryMatchesPr mrules category pr = false := by
  have hcore : categoryMatchCore mrules category pr = false := by
    unfold categoryMatchCore
    rw [if_pos ⟨hex, Or.inr hrules⟩, hlab]
    cases hr : category.rules with
    | none => rfl
    | some rs => rfl
  unfold categoryMatchesPr
  cases category.exclude_labels with
  | none => exact hcore
  | some excl =>
    by_cases hc : haveCommonElementsArr (excl.map toLowerStr) pr.labels <;> simp [hc, hcore]

/-- Witness for C4's amended theorem at the counterexample input. -/
theorem c4_exhaustive_rules_only_never_matches_witness :
    categoryMatchesPr (fun _ _ _ => true)
      { exhaustive := some true, rules := some [{ pattern := "r" }] } (mkPR 2) = false :=
  c4_exhaustive_rules_only_never_matches (fun _ _ _ => true)
    { exhaustive := some true, rules := some [{ pattern := "r" }] } (mkPR 2)
    rfl rfl (by simp)

/-- C6 counterexample. A record matching an exhaustive category loses the
match when the added label is one of the category's exclude labels: the
exclude gate runs before the exhaustive label check. -/
theorem c6_monotonic_counterexample :
    categoryMatchesPr mrulesAlwaysTrue catBugNotSkip prBug = true
    ∧ categoryMatchesPr mrulesAlwaysTrue catBugNotSkip
        { prBug with labels := prBug.labels ++ ["skip"] } = false := by
  decide

theorem haveEvery_append_right (a b : List String) (l : String)
    (h : haveEveryElementsArr a b = true) :
    haveEveryElementsArr a (b ++ [l]) = true := by
  rw [haveEvery_iff] at h ⊢
  intro x hx
  exact List.mem_append_left _ (h x hx)

/-- Exhaustive-mode core matching, in equation form: with `exhaustive=true`
and labels configured, the core check is the label-superset test gated onto
the rules (all by default). -/
theorem categoryMatchCore_exh (mrules : MatchesRulesFn) (category : Category)
    (pr : PullRequestInfo) (ls : List String)
    (hex : category.exhaustive = some true) (hlab : category.labels = some ls) :
    categoryMatchCore mrules category pr =
      match category.rules with
      | some rs =>
        if haveEveryElementsArr (ls.map toLowerStr) pr.labels
        then mrules rs pr (category.exhaustive_rules.getD true)
        else haveEveryElementsArr (ls.map toLowerStr) pr.labels
      | none => haveEveryElementsArr (ls.map toLowerStr) pr.labels := by
  unfold categoryMatchCore
  rw [if_pos ⟨hex, Or.inl (by simp [hlab])⟩, hlab]

/-- C6 as amended: adding a label to a record that already matches an
exhaustive category keeps the match, provided the added label is not one of
the category's (lower-cased) exclude labels and the rule evaluation does not
depend on the record's labels. -/
theorem c6_monotonic_amended (mrules : MatchesRulesFn) (category : Category)
    (pr : PullRequestInfo) (l : String)
    (hex : category.exhaustive = some true)
    (hrules : ∀ rs b, mrules rs { pr with labels := pr.labels ++ [l] } b = mrules rs pr b)
    (hexcl : ∀ excl, category.exclude_labels = some excl → l ∉ excl.map toLowerStr)
    (hm : categoryMatchesPr mrules category pr = true) :
    categoryMatchesPr mrules category { pr with labels := pr.labels ++ [l] } = true := by
  have hcore : categoryMatchCore mrules category pr = true := by
    unfold categoryMatchesPr at hm
    split at hm
    · split at hm
      · exact absurd hm (by simp)
      · exact hm
    · exact hm
  have hold : ∀ excl, category.exclude_labels = some excl →
      haveCommonElementsArr (excl.map toLowerStr) pr.labels = false := by
    intro excl hce
    unfold categoryMatchesPr at hm
    rw [hce] at hm
    have hm2 : (if haveCommonElementsArr (excl.map toLowerStr) pr.labels = true then false
        else categoryMatchCore mrules category pr) = true := hm
    by_cases hc : haveCommonElementsArr (excl.map toLowerStr) pr.labels = true
    · rw [if_pos hc] at hm2
      exact absurd hm2 (by simp)
    · exact Bool.eq_false_iff.mpr hc
  have hnoexcl : ∀ excl, category.exclude_labels = some excl →
      haveCommonElementsArr (excl.map toLowerStr) (pr.labels ++ [l]) = false := by
    intro excl hce
    apply Bool.eq_false_iff.mpr
    intro hc
    obtain ⟨x, hxa, hxb⟩ := (haveCommon_iff _ _).mp hc
    rcases List.mem_append.mp hxb with hxb | hxb
    · exact Bool.eq_false_iff.mp (hold excl hce) ((haveCommon_iff _ _).mpr ⟨x, hxa, hxb⟩)
    · simp only [List.mem_singleton] at hxb
      exact hexcl excl hce (hxb ▸ hxa)
  have hcore' : categoryMatchCore mrules category { pr with labels := pr.labels ++ [l] } = true := by
    cases hlab : category.labels with
    | none =>
      exfalso
      have hfalse : categoryMatchCore mrules category pr = false := by
        unfold categoryMatchCore
        by_cases hcond : category.exhaustive = some true ∧
            (category.labels ≠ none ∨ category.rules ≠ none)
        · rw [if_pos hcond, hlab]
          cases category.rules <;> rfl
        · have hrul : category.rules = none := by
            by_contra hr
            exact hcond ⟨hex, Or.inr hr⟩
          rw [if_neg hcond, hlab, hrul]
      rw [hcore] at hfalse
      exact absurd hfalse (by simp)
    | some ls =>
      rw [categoryMatchCore_exh mrules category pr ls hex hlab] at hcore
      rw [categoryMatchCore_exh mrules category _ ls hex hlab]
      have hlabels : ({ pr with labels := pr.labels ++ [l] } : PullRequestInfo).labels
          = pr.labels ++ [l] := rfl
      cases hrul : category.rules with
      | none =>
        rw [hrul] at hcore
        show haveEveryElementsArr (ls.map toLowerStr) (pr.labels ++ [l]) = true
        exact haveEvery_append_right _ _ _ hcore
      | some rs =>
        rw [hrul] at hcore
        have hcore2 : (if haveEveryElementsArr (ls.map toLowerStr) pr.labels = true then
            mrules rs pr (category.exhaustive_rules.getD true)
          else haveEveryElementsArr (ls.map toLowerStr) pr.labels) = true := hcore
        by_cases hev : haveEveryElementsArr (ls.map toLowerStr) pr.labels = true
        · rw [if_pos hev] at hcore2
          have hev' := haveEvery_append_right (ls.map toLowerStr) pr.labels l hev
          show (if haveEveryElementsArr (ls.map toLowerStr) (pr.labels ++ [l]) = true
            then mrules rs { pr with labels := pr.labels ++ [l] }
              (category.exhaustive_rules.getD true)
            else haveEveryElementsArr (ls.map toLowerStr) (pr.labels ++ [l])) = true
          rw [if_pos hev', hrules rs (category.exhaustive_rules.getD true)]
          exact hcore2
        · rw [if_neg hev] at hcore2
          exact absurd hcore2 hev
  unfold categoryMatchesPr
  cases hce : category.exclude_labels with
  | none => exact hcore'
  | some excl =>
    show (if haveCommonElementsArr (excl.map toLowerStr) (pr.labels ++ [l]) = true then false
      else categoryMatchCore mrules category { pr with labels := pr.labels ++ [l] }) = true
    rw [hnoexcl excl hce]
    simpa using hcore'

/-- Witness for C6's amended theorem: adding a label that is not excluded
keeps the exhaustive match. -/
theorem c6_monotonic_amended_witness :
    categoryMatchesPr mrulesAlwaysTrue catBugNotSkip
      { prBug with labels := prBug.labels ++ ["extra"] } = true :=
  c6_monotonic_amended mrulesAlwaysTrue catBugNotSkip prBug "extra" rfl
    (fun _ _ => rfl) (by intro excl h; cases h; decide) (by decide)

/-! ### Custom placeholder matching (handlePlaceholder) -/

theorem handlePlaceholder_single (tmpl key value : String) (ph : Placeholder)
    (pm : Option PrValueMap) (cfg : Configuration) :
    handlePlaceholder tmpl key value [(key, [ph])] pm cfg =
      handlePlaceholderOne cfg.trim_values value
        (replaceAll tmpl (phToken key) (trimIf cfg.trim_values value), pm) ph := by
  unfold handlePlaceholder
  rw [show omapGet [(key, [ph])] key = some [ph] by simp [omapGet]]
  rfl

/-- C7 counterexample. A replace-style extractor whose result (the empty
string) differs from the input value is nevertheless not treated as
matched: the per-record map stays empty and the placeholder's token is left
in the template. -/
theorem c7_replace_match_counterexample :
    rpEmpty "abc" ≠ "abc"
    ∧ handlePlaceholder (phToken "N") "K" "abc" [("K", [phEmptyRepl])] (some []) cfgDefault
      = (phToken "N", some []) := by
  constructor
  · decide
  · decide

/-- C7 as amended: the placeholder is treated as matched (value recorded,
token substituted) precisely when the replace result is nonempty and either
differs from the input or the input itself matches the extractor's pattern;
in particular an empty replace result is never a match even when it differs
from the input. -/
theorem c7_replace_match_amended (tmpl key value nm : String) (mts : String → Bool)
    (rp : String → String) (pm : PrValueMap) (cfg : Configuration) :
    handlePlaceholder tmpl key value
        [(key, [{ name := nm, source := key, transformer := some { isMatch := mts, repl := rp } }])]
        (some pm) cfg =
      if rp value ≠ "" ∧ (rp value ≠ value ∨ mts value = true) then
        (replaceAll (replaceAll tmpl (phToken key) (trimIf cfg.trim_values value)) (phToken nm)
          (trimIf cfg.trim_values (rp value)), some (createOrSet pm nm (rp value)))
      else (replaceAll tmpl (phToken key) (trimIf cfg.trim_values value), some pm) := by
  rw [handlePlaceholder_single]
  show handlePlaceholderOne cfg.trim_values value _ _ = _
  unfold handlePlaceholderOne
  by_cases h1 : rp value = ""
  · simp [h1]
  · by_cases h2 : rp value = value
    · by_cases h3 : mts value = true
      · simp [h1, h2, h3]
      · simp [h1, h2, h3]
    · simp [h1, h2]

/-- C10. A custom placeholder whose replace-style extractor produces the
empty string is treated as unmatched even though the empty result differs
from the (nonempty) input: nothing is recorded in the per-record map and the
placeholder's own token is not substituted in this pass. -/
theorem c10_empty_extraction_unmatched (tmpl key value nm : String) (mts : String → Bool)
    (rp : String → String) (pm : PrValueMap) (cfg : Configuration)
    (hempty : rp value = "") (hdiff : value ≠ "") :
    handlePlaceholder tmpl key value
        [(key, [{ name := nm, source := key, transformer := some { isMatch := mts, repl := rp } }])]
        (some pm) cfg
      = (replaceAll tmpl (phToken key) (trimIf cfg.trim_values value), some pm) := by
  rw [handlePlaceholder_single]
  show handlePlaceholderOne cfg.trim_values value _ _ = _
  unfold handlePlaceholderOne
  simp [hempty]

/-- Witness for C10 at a concrete input. -/
theorem c10_empty_extraction_unmatched_witness :
    handlePlaceholder (phToken "N") "K" "abc" [("K", [phEmptyRepl])] (some []) cfgDefault
      = (replaceAll (phToken "N") (phToken "K") (trimIf cfgDefault.trim_values "abc"), some []) :=
  c10_empty_extraction_unmatched (phToken "N") "K" "abc" "N" mtsFalse rpEmpty
    [] cfgDefault rfl (by decide)

/-! ### Empty-input short circuit -/

/-- C8. With zero input records `buildChangelog` skips the whole pipeline
and renders the configured `empty_template` against the document-level
placeholders only (whatever the rest of the pipeline would do); with
`empty_template` set to `No changes.`, which contains no placeholder
tokens, the output is exactly `No changes.`. -/
theorem c8_empty_input :
    (∀ (rest : DiffInfo → List PullRequestInfo → ReleaseNotesOptions → String)
        (diffInfo : DiffInfo) (options : ReleaseNotesOptions),
      buildChangelog rest diffInfo [] options
        = replaceEmptyTemplate options.configuration.empty_template options)
    ∧ (∀ (rest : DiffInfo → List PullRequestInfo → ReleaseNotesOptions → String)
        (diffInfo : DiffInfo),
      buildChangelog rest diffInfo [] optsNoChanges = "No changes.") :=
  ⟨fun _ _ _ => rfl, fun _ _ => rfl⟩

/-! ### Second-pass array placeholder substitution -/

theorem foldl_fixed_of {α β : Type} (f : β → α → β) (b : β) (h : ∀ a, f b a = b) :
    ∀ l : List α, List.foldl f b l = b := by
  intro l
  induction l with
  | nil => rfl
  | cons a rest ih => rw [List.foldl_cons, h a]; exact ih

theorem replaceAllAux_no_match (pat rep : List Char) :
    ∀ (fuel : Nat) (s : List Char),
      (∀ t, t <:+ s → pat.isPrefixOf t = false) →
      replaceAllAux pat rep fuel s = s := by
  intro fuel
  induction fuel with
  | zero => intro s _; rfl
  | succ n ih =>
    intro s h
    cases s with
    | nil => rfl
    | cons c cs =>
      unfold replaceAllAux
      rw [h (c :: cs) (List.suffix_refl _)]
      simp only [Bool.false_eq_true, if_false]
      congr 1
      exact ih cs (fun t ht => h t (ht.trans (List.suffix_cons c cs)))

theorem replaceAllAux_nil (pat rep : List Char) (fuel : Nat) :
    replaceAllAux pat rep fuel [] = [] := by
  cases fuel <;> rfl

theorem replaceAllAux_self (rep : List Char) (c : Char) (cs : List Char) :
    replaceAllAux (c :: cs) rep (cs.length + 1) (c :: cs) = rep := by
  show (if (c :: cs).isPrefixOf (c :: cs) = true then
      rep ++ replaceAllAux (c :: cs) rep cs.length ((c :: cs).drop (c :: cs).length)
    else c :: replaceAllAux (c :: cs) rep cs.length cs) = rep
  rw [if_pos (List.isPrefixOf_iff_prefix.mpr (List.prefix_refl _)), List.drop_length,
    replaceAllAux_nil, List.append_nil]

theorem replaceAll_self (s rep : String) (h : s.data ≠ []) :
    replaceAll s s rep = rep := by
  unfold replaceAll
  rw [if_neg (by simpa [List.isEmpty_iff] using h)]
  cases hs : s.data with
  | nil => exact absurd hs h
  | cons c cs =>
    rw [show (c :: cs).length = cs.length + 1 from rfl, replaceAllAux_self]

theorem natDigitsAux_succ (fuel n : Nat) :
    natDigitsAux (fuel + 1) n
      = if n = 0 then [] else digitChar (n % 10) :: natDigitsAux fuel (n / 10) := rfl

theorem natToStr_two_digits (i : Nat) (hi : ¬ i < 10) :
    2 ≤ (natToStr i).data.length := by
  have hi0 : ¬ i = 0 := by omega
  unfold natToStr
  rw [if_neg hi0]
  show 2 ≤ (natDigitsAux (i + 1) i).reverse.length
  rw [List.length_reverse, natDigitsAux_succ, if_neg hi0]
  obtain ⟨f, hf⟩ : ∃ f, i = f + 1 := ⟨i - 1, by omega⟩
  rw [show natDigitsAux i (i / 10) = natDigitsAux (f + 1) (i / 10) by rw [hf]]
  rw [natDigitsAux_succ, if_neg (by omega : ¬ i / 10 = 0)]
  simp only [List.length_cons]
  omega

/-- An indexed token `CUSTOM[i]` never occurs in the star token
`CUSTOM[*]`: single-digit indexed tokens equal it in length but differ at
the digit, longer indices do not even fit. -/
theorem c9_star_unchanged (i : Nat) (v : String) :
    replaceAll (phToken "CUSTOM[*]") (phToken ("CUSTOM[" ++ natToStr i ++ "]")) v
      = phToken "CUSTOM[*]" := by
  by_cases hi : i < 10
  · interval_cases i <;> rfl
  · have hlen2 := natToStr_two_digits i hi
    have e1 : ("$\x7b\x7b" : String).data.length = 3 := rfl
    have e2 : ("CUSTOM[" : String).data.length = 7 := rfl
    have e3 : ("]" : String).data.length = 1 := rfl
    have e4 : ("\x7d\x7d" : String).data.length = 2 := rfl
    have hplen : (phToken ("CUSTOM[" ++ natToStr i ++ "]")).data.length
        = (natToStr i).data.length + 13 := by
      simp only [phToken, String.data_append, List.length_append, e1, e2, e3, e4]
      omega
    have hnopre : ∀ t, t <:+ (phToken "CUSTOM[*]").data →
        (phToken ("CUSTOM[" ++ natToStr i ++ "]")).data.isPrefixOf t = false := by
      intro t ht
      apply Bool.eq_false_iff.mpr
      intro hp
      have h1 := (List.isPrefixOf_iff_prefix.mp hp).length_le
      have h2 := ht.length_le
      have h3 : (phToken "CUSTOM[*]").data.length = 14 := rfl
      omega
    have hne : ¬ ((phToken ("CUSTOM[" ++ natToStr i ++ "]")).data.isEmpty = true) := by
      intro hempty
      rw [List.isEmpty_iff.mp hempty] at hplen
      simp at hplen
    unfold replaceAll
    rw [if_neg hne]
    rw [replaceAllAux_no_match _ _ _ _ hnopre]

/-- C9. In the second-pass substitution, a tracked custom placeholder's
`NAME[*]` token is replaced by the recorded values joined with the empty
string, while a built-in array placeholder records `KEY[*]` as the values
joined with a comma and a space. -/
theorem c9_array_join_separators (values : List String) (cfg : Configuration)
    (m : List (String × String)) (hv : values ≠ []) :
    replacePrPlaceholders (phToken "CUSTOM[*]") [("CUSTOM", values)] cfg = String.join values
    ∧ omapGet (fillArrayPlaceholders m "ASSIGNEES" values) "ASSIGNEES[*]"
      = some (String.intercalate ", " values) := by
  constructor
  · unfold replacePrPlaceholders
    rw [List.foldl_cons, List.foldl_nil]
    show replaceAll
      (values.enum.foldl
        (fun t2 iv => replaceAll t2 (phToken ("CUSTOM" ++ "[" ++ natToStr iv.1 ++ "]"))
          (trimIf cfg.trim_values iv.2))
        (phToken "CUSTOM[*]"))
      (phToken ("CUSTOM" ++ "[*]")) (String.join values) = String.join values
    rw [show ("CUSTOM" ++ "[*]" : String) = "CUSTOM[*]" from rfl]
    simp only [show ("CUSTOM" ++ "[" : String) = "CUSTOM[" from rfl]
    rw [foldl_fixed_of _ _ (fun iv => c9_star_unchanged iv.1 (trimIf cfg.trim_values iv.2))
      values.enum]
    exact replaceAll_self (phToken "CUSTOM[*]") (String.join values) (by decide)
  · unfold fillArrayPlaceholders
    rw [if_neg (fun h0 => hv (List.length_eq_zero.mp h0))]
    rw [show ("ASSIGNEES" ++ "[*]" : String) = "ASSIGNEES[*]" from rfl]
    exact omapGet_omapSet_self _ _ _

/-- Witness for C9 at a concrete value list. -/
theorem c9_array_join_separators_witness :
    replacePrPlaceholders (phToken "CUSTOM[*]") [("CUSTOM", ["x", "y"])] cfgDefault
        = String.join ["x", "y"]
    ∧ omapGet (fillArrayPlaceholders [] "ASSIGNEES" ["x", "y"]) "ASSIGNEES[*]"
        = some (String.intercalate ", " ["x", "y"]) :=
  c9_array_join_separators ["x", "y"] cfgDefault [] (by decide)
